import Mathlib

/-!
# Verification of `avis.py` (audio visualizer / matrix controller)

Shallow embedding of the pure core of `src/avis.py`:

* configuration constants (`led_width`, `led_height`, `hist_len`, `samples_per_frame`);
* the adaptive normalizer `normalize_amplitudes` together with its history
  ring state (`min_buf`, `max_buf`, `hist_idx`), modelled over `ℚ`;
* the per-column dropoff update performed at the top of `render_column`;
* `update_matrix_from_amplitudes` and `upload_matrix` (the serial byte
  emission);
* `compute_amplitudes` (FFT bucketing), modelled over `ℝ`/`ℂ` with the
  discrete Fourier transform of `numpy.fft.rfft` spelled out.

Python floats are modelled as exact rationals (resp. reals for the FFT
pipeline); Python `int()` truncation is modelled by `python_int`.
-/

namespace Avis

/-! ## Configuration constants (`avis.py` lines 22-29) -/

def led_width : ℕ := 32
def led_height : ℕ := 16
def samples_per_frame : ℕ := 512
def hist_len : ℕ := 128

/-! ## History ring state (`avis.py` lines 29-32) -/

/-- The mutable global state of the adaptive normalizer: the two parallel
circular buffers `min_buf`/`max_buf` and the write cursor `hist_idx`. -/
structure NormState where
  min_buf : List ℚ
  max_buf : List ℚ
  hist_idx : ℕ
deriving DecidableEq

/-- Initial state: `min_buf = [0]*hist_len`, `max_buf = [0]*hist_len`,
`hist_idx = 0`. -/
def init_state : NormState :=
  { min_buf := List.replicate hist_len 0
    max_buf := List.replicate hist_len 0
    hist_idx := 0 }

/-! ## Per-frame min/max scan (`avis.py` lines 113-121)

The code sets `cur_min = cur_max = amp[0]` and then scans the whole list.
This is `List.foldl min/max` with the head as initial value (the Python code
crashes on an empty list; we use `headD 0`, and all theorems below are about
vectors of length `led_width > 0`, where the two agree).  The definition is
generic so that it can also be applied to the real-valued output of
`compute_amplitudes`. -/

def frame_min {α : Type} [LinearOrder α] [Zero α] (amp : List α) : α :=
  amp.foldl min (amp.headD 0)

def frame_max {α : Type} [LinearOrder α] [Zero α] (amp : List α) : α :=
  amp.foldl max (amp.headD 0)

/-! ## The adaptive normalizer (`avis.py` lines 110-145) -/

/-- Effective minimum: after pushing the current frame's min into the ring at
the cursor, fold `min` over the whole ring, starting from the frame's own
minimum (the code keeps folding into the `cur_min` variable). -/
def eff_min (s : NormState) (amp : List ℚ) : ℚ :=
  (s.min_buf.set s.hist_idx (frame_min amp)).foldl min (frame_min amp)

/-- Effective maximum, dual to `eff_min`. -/
def eff_max (s : NormState) (amp : List ℚ) : ℚ :=
  (s.max_buf.set s.hist_idx (frame_max amp)).foldl max (frame_max amp)

/-- The effective maximum after the zero-range guard
(`if cur_max == cur_min: cur_max = cur_min + 1`, `avis.py` lines 139-141). -/
def guard_max (s : NormState) (amp : List ℚ) : ℚ :=
  if eff_max s amp = eff_min s amp then eff_min s amp + 1 else eff_max s amp

/-- `normalize_amplitudes` (`avis.py` lines 110-145).  Python mutates `amp`
in place and the globals; here we return the new state together with the new
vector.  Steps, in source order: compute the frame min/max; overwrite the
ring slot at `hist_idx`; advance the cursor (wrap to 0 when it reaches
`hist_len`); fold the whole ring into the frame min/max; apply the
zero-range guard (`if cur_max == cur_min: cur_max = cur_min + 1`); rescale
every element. -/
def normalize_amplitudes (s : NormState) (amp : List ℚ) : NormState × List ℚ :=
  let m := eff_min s amp
  let M := guard_max s amp
  ({ min_buf := s.min_buf.set s.hist_idx (frame_min amp)
     max_buf := s.max_buf.set s.hist_idx (frame_max amp)
     hist_idx := if s.hist_idx + 1 ≥ hist_len then 0 else s.hist_idx + 1 },
   amp.map (fun a => (a - m) / (M - m)))

/-! ## The dropoff update (`avis.py` lines 44-51)

`render_column` first updates the dropoff for its column:
`dropoffs[x] = max(dropoffs[x] - 0.25, current_levels[x] + 0.5)` followed by
the two clamps `if dropoffs[x] < 0: dropoffs[x] = 0` and
`if dropoffs[x] >= led_height: dropoffs[x] = led_height - 1`.  The drawing
part is display I/O and not modelled. -/

def dropoff_step (level d : ℚ) : ℚ :=
  let d1 : ℚ := max (d - 1/4) (level + 1/2)
  let d2 : ℚ := if d1 < 0 then 0 else d1
  if d2 ≥ (led_height : ℚ) then (led_height : ℚ) - 1 else d2

/-! ## Matrix update and serial upload (`avis.py` lines 83-85, 148-151) -/

/-- Python `int()` truncates toward zero. -/
def python_int (q : ℚ) : ℤ :=
  if 0 ≤ q then ⌊q⌋ else -⌊-q⌋

/-- `update_matrix_from_amplitudes` (`avis.py` lines 148-151):
`current_levels[x] = int(amps[x] * led_height)` for `x < led_width`. -/
def update_matrix_from_amplitudes (amps : List ℚ) : List ℤ :=
  (List.range led_width).map (fun x => python_int (amps.getD x 0 * led_height))

/-- `upload_matrix` (`avis.py` lines 83-85): writes
`current_levels[i].to_bytes(1, byteorder='big')` for `i` in
`range(led_width)`.  We model the emitted byte stream as the list of the
integer values written, in emission order. -/
def upload_matrix (levels : List ℤ) : List ℤ :=
  (List.range led_width).map (fun i => levels.getD i 0)

/-! ## Helper lemmas about `List.foldl min` / `List.foldl max` -/

lemma foldl_min_le_init {α : Type} [LinearOrder α] (l : List α) (i : α) :
    l.foldl min i ≤ i := by
  induction l generalizing i with
  | nil => exact le_refl _
  | cons a t ih => exact le_trans (ih (min i a)) (min_le_left _ _)

lemma foldl_min_le_mem {α : Type} [LinearOrder α] {l : List α} {x : α} (i : α)
    (hx : x ∈ l) : l.foldl min i ≤ x := by
  induction l generalizing i with
  | nil => cases hx
  | cons a t ih =>
    rcases List.mem_cons.1 hx with rfl | hx
    · exact le_trans (foldl_min_le_init t (min i x)) (min_le_right _ _)
    · exact ih _ hx

lemma le_foldl_min {α : Type} [LinearOrder α] {l : List α} {b i : α}
    (hi : b ≤ i) (hl : ∀ x ∈ l, b ≤ x) : b ≤ l.foldl min i := by
  induction l generalizing i with
  | nil => exact hi
  | cons a t ih =>
    exact ih (le_min hi (hl a (List.mem_cons_self a t)))
      (fun x hx => hl x (List.mem_cons_of_mem a hx))

lemma init_le_foldl_max {α : Type} [LinearOrder α] (l : List α) (i : α) :
    i ≤ l.foldl max i := by
  induction l generalizing i with
  | nil => exact le_refl _
  | cons a t ih => exact le_trans (le_max_left _ _) (ih (max i a))

lemma mem_le_foldl_max {α : Type} [LinearOrder α] {l : List α} {x : α} (i : α)
    (hx : x ∈ l) : x ≤ l.foldl max i := by
  induction l generalizing i with
  | nil => cases hx
  | cons a t ih =>
    rcases List.mem_cons.1 hx with rfl | hx
    · exact le_trans (le_max_right _ _) (init_le_foldl_max t (max i x))
    · exact ih _ hx

lemma foldl_max_le {α : Type} [LinearOrder α] {l : List α} {b i : α}
    (hi : i ≤ b) (hl : ∀ x ∈ l, x ≤ b) : l.foldl max i ≤ b := by
  induction l generalizing i with
  | nil => exact hi
  | cons a t ih =>
    exact ih (max_le hi (hl a (List.mem_cons_self a t)))
      (fun x hx => hl x (List.mem_cons_of_mem a hx))

lemma frame_min_le_mem {α : Type} [LinearOrder α] [Zero α] {amp : List α} {x : α}
    (hx : x ∈ amp) : frame_min amp ≤ x :=
  foldl_min_le_mem _ hx

lemma mem_le_frame_max {α : Type} [LinearOrder α] [Zero α] {amp : List α} {x : α}
    (hx : x ∈ amp) : x ≤ frame_max amp :=
  mem_le_foldl_max _ hx

lemma frame_min_le_frame_max {α : Type} [LinearOrder α] [Zero α] (amp : List α) :
    frame_min amp ≤ frame_max amp :=
  le_trans (foldl_min_le_init _ _) (init_le_foldl_max _ _)

/-! ## Helper lemmas about `getD` of `set` and `replicate` -/

lemma getD_set_eq {α : Type} {l : List α} {i : ℕ} (a d : α) (h : i < l.length) :
    (l.set i a).getD i d = a := by
  rw [List.getD_eq_getElem _ _ (by simpa using h)]
  exact List.getElem_set_self (by simpa using h)

lemma getD_set_ne {α : Type} (l : List α) {i j : ℕ} (a d : α) (h : i ≠ j) :
    (l.set i a).getD j d = l.getD j d := by
  rcases Nat.lt_or_ge j l.length with hj | hj
  · rw [List.getD_eq_getElem _ _ (by simpa using hj),
      List.getD_eq_getElem _ _ hj]
    exact List.getElem_set_ne h _
  · rw [List.getD_eq_default _ _ (by simpa using hj), List.getD_eq_default _ _ hj]

lemma getD_replicate_self {α : Type} (a : α) : ∀ (n j : ℕ),
    (List.replicate n a).getD j a = a
  | 0, _ => rfl
  | _ + 1, 0 => rfl
  | n + 1, j + 1 => getD_replicate_self a n j

lemma getD_mem {α : Type} {l : List α} {i : ℕ} (d : α) (h : i < l.length) :
    l.getD i d ∈ l := by
  rw [List.getD_eq_getElem _ _ h]
  exact List.getElem_mem h

/-! ## Bounds on the effective min/max -/

lemma eff_min_le_mem {s : NormState} {amp : List ℚ} {x : ℚ} (hx : x ∈ amp) :
    eff_min s amp ≤ x :=
  le_trans (foldl_min_le_init _ _) (frame_min_le_mem hx)

lemma mem_le_eff_max {s : NormState} {amp : List ℚ} {x : ℚ} (hx : x ∈ amp) :
    x ≤ eff_max s amp :=
  le_trans (mem_le_frame_max hx) (init_le_foldl_max _ _)

lemma eff_min_le_eff_max (s : NormState) (amp : List ℚ) :
    eff_min s amp ≤ eff_max s amp :=
  le_trans (foldl_min_le_init _ _)
    (le_trans (frame_min_le_frame_max amp) (init_le_foldl_max _ _))

lemma eff_min_lt_guard_max (s : NormState) (amp : List ℚ) :
    eff_min s amp < guard_max s amp := by
  unfold guard_max
  split
  · exact lt_add_one _
  · exact lt_of_le_of_ne (eff_min_le_eff_max s amp) (Ne.symm (by assumption))

lemma mem_le_guard_max {s : NormState} {amp : List ℚ} {x : ℚ} (hx : x ∈ amp) :
    x ≤ guard_max s amp := by
  unfold guard_max
  split
  · calc x ≤ eff_max s amp := mem_le_eff_max hx
      _ = eff_min s amp := by assumption
      _ ≤ eff_min s amp + 1 := le_of_lt (lt_add_one _)
  · exact mem_le_eff_max hx

/-- The `i`-th output of `normalize_amplitudes` spelled out. -/
lemma normalize_out_getD (s : NormState) (amp : List ℚ) {i : ℕ}
    (h : i < amp.length) :
    (normalize_amplitudes s amp).2.getD i 0 =
      (amp.getD i 0 - eff_min s amp) / (guard_max s amp - eff_min s amp) := by
  have hmap : i < (amp.map
      (fun a => (a - eff_min s amp) / (guard_max s amp - eff_min s amp))).length := by
    simpa using h
  show (amp.map
      (fun a => (a - eff_min s amp) / (guard_max s amp - eff_min s amp))).getD i 0 =
    (amp.getD i 0 - eff_min s amp) / (guard_max s amp - eff_min s amp)
  rw [List.getD_eq_getElem _ _ hmap, List.getElem_map, List.getD_eq_getElem _ _ h]

/-- C1.  For every history state and every amplitude vector of length
`led_width`, every element of the vector produced by `normalize_amplitudes`
lies in `[0, 1]`: the zero-range guard forces the effective max strictly
above the effective min, so the rescale is well-defined and in range. -/
theorem C1_normalized_in_unit_interval (s : NormState) (amp : List ℚ)
    (hlen : amp.length = led_width) (i : ℕ) (hi : i < led_width) :
    0 ≤ (normalize_amplitudes s amp).2.getD i 0 ∧
      (normalize_amplitudes s amp).2.getD i 0 ≤ 1 := by
  have hia : i < amp.length := hlen ▸ hi
  have hmem : amp.getD i 0 ∈ amp := getD_mem 0 hia
  have hd : (0 : ℚ) < guard_max s amp - eff_min s amp :=
    sub_pos.2 (eff_min_lt_guard_max s amp)
  rw [normalize_out_getD s amp hia]
  constructor
  · exact div_nonneg (sub_nonneg.2 (eff_min_le_mem hmem)) (le_of_lt hd)
  · rw [div_le_one hd]
    exact sub_le_sub_right (mem_le_guard_max hmem) _

/-- Witness for C1 at a concrete state and vector. -/
theorem C1_witness :
    (List.map (fun n : ℕ => (n : ℚ)) (List.range led_width)).length = led_width ∧
      (0 ≤ (normalize_amplitudes init_state
            (List.map (fun n : ℕ => (n : ℚ)) (List.range led_width))).2.getD 3 0 ∧
        (normalize_amplitudes init_state
            (List.map (fun n : ℕ => (n : ℚ)) (List.range led_width))).2.getD 3 0 ≤ 1) :=
  ⟨by rw [List.length_map, List.length_range], C1_normalized_in_unit_interval init_state _ (by rw [List.length_map, List.length_range]) 3 (by norm_num [led_width])⟩

/-! ## Dropoff claims (C2, C5) -/

lemma led_height_q : (led_height : ℚ) = 16 := by
  norm_num [led_height]

/-- Single dropoff update stays in `[0, led_height)` for any nonnegative
level and arbitrary previous marker. -/
lemma dropoff_step_nonneg_lt (level d : ℚ) (hl : 0 ≤ level) :
    0 ≤ dropoff_step level d ∧ dropoff_step level d < (led_height : ℚ) := by
  simp only [dropoff_step]
  have h1 : (0 : ℚ) < max (d - 1/4) (level + 1/2) :=
    lt_of_lt_of_le (by linarith) (le_max_right _ _)
  rw [if_neg (not_lt.2 (le_of_lt h1))]
  rw [led_height_q]
  split
  · constructor <;> norm_num
  · constructor
    · exact le_of_lt h1
    · linarith [not_le.1 (by assumption : ¬ max (d - 1/4) (level + 1/2) ≥ 16)]

lemma dropoff_fold_inv (levels : List ℚ) : ∀ d : ℚ,
    (∀ l ∈ levels, 0 ≤ l) → 0 ≤ d → d < (led_height : ℚ) →
    0 ≤ levels.foldl (fun d l => dropoff_step l d) d ∧
      levels.foldl (fun d l => dropoff_step l d) d < (led_height : ℚ) := by
  induction levels with
  | nil => intro d _ h0 h1; exact ⟨h0, h1⟩
  | cons a t ih =>
    intro d hl _ _
    have hstep := dropoff_step_nonneg_lt a d (hl a (List.mem_cons_self a t))
    exact ih (dropoff_step a d) (fun x hx => hl x (List.mem_cons_of_mem a hx))
      hstep.1 hstep.2

lemma dropoff_step_zero_half : dropoff_step 0 (1/2) = 1/2 := by
  simp only [dropoff_step]
  rw [max_eq_right (by norm_num : (1 : ℚ)/2 - 1/4 ≤ 0 + 1/2)]
  rw [if_neg (by norm_num : ¬ (0 : ℚ) + 1/2 < 0)]
  rw [if_neg (by rw [led_height_q]; norm_num : ¬ (0 : ℚ) + 1/2 ≥ (led_height : ℚ))]
  norm_num

lemma dropoff_step_15_0 : dropoff_step 15 0 = 31/2 := by
  simp only [dropoff_step]
  rw [max_eq_right (by norm_num : (0 : ℚ) - 1/4 ≤ 15 + 1/2)]
  rw [if_neg (by norm_num : ¬ (15 : ℚ) + 1/2 < 0)]
  rw [if_neg (by rw [led_height_q]; norm_num : ¬ (15 : ℚ) + 1/2 ≥ (led_height : ℚ))]
  norm_num

/-- C2 counterexample: with the marker at the nonzero value `1/2` and a zero
level input, the next marker value is again `1/2` — it neither decreases by
`0.25` nor ever reaches `0`, contradicting "decreases by exactly 0.25 on each
tick until it reaches 0". -/
theorem C2_decay_counterexample :
    dropoff_step 0 (1/2) = 1/2 ∧ dropoff_step 0 (1/2) ≠ 1/2 - 1/4 ∧
      dropoff_step 0 (1/2) ≠ 0 := by
  refine ⟨dropoff_step_zero_half, ?_, ?_⟩ <;> rw [dropoff_step_zero_half] <;> norm_num

/-- C2 (amended).  With the column's level held at zero, the dropoff marker
falls by exactly `0.25` row-units per tick while it is at least `3/4`, and
once it reaches `1/2` (the zero-level target `0 + 0.5`) it stays at `1/2`
forever; it never reaches `0`. -/
theorem C2_decay_rate_amended :
    (∀ d : ℚ, 3/4 ≤ d → d < (led_height : ℚ) → dropoff_step 0 d = d - 1/4) ∧
      dropoff_step 0 (1/2) = 1/2 := by
  constructor
  · intro d h1 h2
    rw [led_height_q] at h2
    simp only [dropoff_step]
    rw [max_eq_left (by linarith : (0 : ℚ) + 1/2 ≤ d - 1/4)]
    rw [if_neg (by linarith : ¬ d - 1/4 < 0)]
    rw [if_neg (by rw [led_height_q]; linarith : ¬ d - 1/4 ≥ (led_height : ℚ))]
  · exact dropoff_step_zero_half

/-- Witness for C2 (amended) at the concrete marker values `1` and `1/2`. -/
theorem C2_decay_rate_witness :
    dropoff_step 0 1 = 1 - 1/4 ∧ dropoff_step 0 (1/2) = 1/2 :=
  ⟨C2_decay_rate_amended.1 1 (by norm_num) (by rw [led_height_q]; norm_num),
    C2_decay_rate_amended.2⟩

/-- C5 counterexample: with the marker at `0` and level input `15`
(reachable, since normalized amplitudes in `[15/16, 1)` yield level 15), the
updated dropoff is `15.5`, which exceeds `led_height - 1 = 15`: the upper
clamp only triggers at `led_height`, so values in `[led_height - 1,
led_height)` pass through. -/
theorem C5_dropoff_range_counterexample :
    dropoff_step 15 0 = 31/2 ∧ ¬ dropoff_step 15 0 ≤ (led_height : ℚ) - 1 := by
  refine ⟨dropoff_step_15_0, ?_⟩
  rw [dropoff_step_15_0, led_height_q]
  norm_num

/-- C5 (amended).  For every nonnegative level and arbitrary previous marker,
one dropoff update lands in `[0, led_height)` (it can exceed
`led_height - 1`, but never reaches `led_height` and never goes below `0`);
consequently the marker stays in `[0, led_height)` across every sequence of
nonnegative level inputs. -/
theorem C5_dropoff_range_amended :
    (∀ level d : ℚ, 0 ≤ level →
      0 ≤ dropoff_step level d ∧ dropoff_step level d < (led_height : ℚ)) ∧
    (∀ (levels : List ℚ) (d0 : ℚ), levels ≠ [] → (∀ l ∈ levels, 0 ≤ l) →
      0 ≤ levels.foldl (fun d l => dropoff_step l d) d0 ∧
        levels.foldl (fun d l => dropoff_step l d) d0 < (led_height : ℚ)) := by
  refine ⟨fun level d hl => dropoff_step_nonneg_lt level d hl, ?_⟩
  intro levels d0 hne hl
  match levels with
  | [] => exact absurd rfl hne
  | a :: t =>
    have hstep := dropoff_step_nonneg_lt a d0 (hl a (List.mem_cons_self a t))
    exact dropoff_fold_inv t (dropoff_step a d0)
      (fun x hx => hl x (List.mem_cons_of_mem a hx)) hstep.1 hstep.2

/-- Witness for C5 (amended): one step at level `0`, marker `20`, and the
input sequence `[16, 0, 0]` from marker `-3`. -/
theorem C5_dropoff_range_witness :
    (0 ≤ dropoff_step 0 20 ∧ dropoff_step 0 20 < (led_height : ℚ)) ∧
      (0 ≤ [16, (0 : ℚ), 0].foldl (fun d l => dropoff_step l d) (-3) ∧
        [16, (0 : ℚ), 0].foldl (fun d l => dropoff_step l d) (-3) <
          (led_height : ℚ)) :=
  ⟨C5_dropoff_range_amended.1 0 20 (le_refl 0),
    C5_dropoff_range_amended.2 [16, 0, 0] (-3) (by simp)
      (by intro l hl; fin_cases hl <;> norm_num)⟩

/-! ## Projections of `normalize_amplitudes` -/

lemma normalize_fst_min_buf (s : NormState) (amp : List ℚ) :
    (normalize_amplitudes s amp).1.min_buf =
      s.min_buf.set s.hist_idx (frame_min amp) := rfl

lemma normalize_fst_max_buf (s : NormState) (amp : List ℚ) :
    (normalize_amplitudes s amp).1.max_buf =
      s.max_buf.set s.hist_idx (frame_max amp) := rfl

lemma normalize_fst_idx (s : NormState) (amp : List ℚ) :
    (normalize_amplitudes s amp).1.hist_idx =
      if s.hist_idx + 1 ≥ hist_len then 0 else s.hist_idx + 1 := rfl

lemma normalize_snd (s : NormState) (amp : List ℚ) :
    (normalize_amplitudes s amp).2 =
      amp.map (fun a => (a - eff_min s amp) / (guard_max s amp - eff_min s amp)) := rfl

/-! ## The constant-frame scenario (C3)

Feed identical frames of a constant value `c` through the normalizer,
starting from the initial all-zero state. -/

/-- A frame whose `led_width` amplitudes all equal `c`. -/
def const_frame (c : ℚ) : List ℚ := List.replicate led_width c

/-- One tick of the normalizer on a constant frame (state part). -/
def tick (c : ℚ) (s : NormState) : NormState :=
  (normalize_amplitudes s (const_frame c)).1

/-- The normalizer state after `k` constant-frame ticks from startup. -/
def state_after (c : ℚ) (k : ℕ) : NormState := (tick c)^[k] init_state

/-- The normalized output produced on tick `k + 1` (0-indexed `k`). -/
def output_at (c : ℚ) (k : ℕ) : List ℚ :=
  (normalize_amplitudes (state_after c k) (const_frame c)).2

lemma headD_replicate {α : Type} (a d : α) {n : ℕ} (h : 0 < n) :
    (List.replicate n a).headD d = a := by
  cases n with
  | zero => exact absurd h (lt_irrefl 0)
  | succ m => rfl

lemma frame_min_replicate {α : Type} [LinearOrder α] [Zero α] (a : α) {n : ℕ}
    (h : 0 < n) : frame_min (List.replicate n a) = a := by
  unfold frame_min
  rw [headD_replicate a 0 h]
  exact le_antisymm (foldl_min_le_init _ _)
    (le_foldl_min (le_refl a) (fun x hx => le_of_eq (List.eq_of_mem_replicate hx).symm))

lemma frame_max_replicate {α : Type} [LinearOrder α] [Zero α] (a : α) {n : ℕ}
    (h : 0 < n) : frame_max (List.replicate n a) = a := by
  unfold frame_max
  rw [headD_replicate a 0 h]
  exact le_antisymm
    (foldl_max_le (le_refl a) (fun x hx => le_of_eq (List.eq_of_mem_replicate hx)))
    (init_le_foldl_max _ _)

lemma led_width_pos : 0 < led_width := by norm_num [led_width]

lemma frame_min_const (c : ℚ) : frame_min (const_frame c) = c :=
  frame_min_replicate c led_width_pos

lemma frame_max_const (c : ℚ) : frame_max (const_frame c) = c :=
  frame_max_replicate c led_width_pos

/-- Ring-state characterization along the constant-frame run: after `k ≤
hist_len` ticks the cursor is `k % hist_len` and slot `i` holds `c` exactly
when `i < k` (and its initial `0` otherwise). -/
lemma state_after_char (c : ℚ) : ∀ k, k ≤ hist_len →
    (state_after c k).min_buf.length = hist_len ∧
    (state_after c k).max_buf.length = hist_len ∧
    (state_after c k).hist_idx = k % hist_len ∧
    (∀ i, i < hist_len → (state_after c k).min_buf.getD i 0 = if i < k then c else 0) ∧
    (∀ i, i < hist_len → (state_after c k).max_buf.getD i 0 = if i < k then c else 0) := by
  intro k
  induction k with
  | zero =>
    intro _
    refine ⟨by simp [state_after, init_state], by simp [state_after, init_state],
      by simp [state_after, init_state], ?_, ?_⟩ <;>
      · intro i _
        simp only [state_after, Function.iterate_zero_apply, init_state]
        rw [getD_replicate_self]
        simp
  | succ k ih =>
    intro hk1
    have hklt : k < hist_len := lt_of_lt_of_le (Nat.lt_succ_self k) hk1
    obtain ⟨hminlen, hmaxlen, hidx, hmin, hmax⟩ := ih (le_of_lt hklt)
    have hstep : state_after c (k + 1) = tick c (state_after c k) :=
      Function.iterate_succ_apply' (tick c) k init_state
    have hidxk : (state_after c k).hist_idx = k := by
      rw [hidx, Nat.mod_eq_of_lt hklt]
    refine ⟨?_, ?_, ?_, ?_, ?_⟩
    · rw [hstep]
      show ((state_after c k).min_buf.set _ _).length = hist_len
      rw [List.length_set]; exact hminlen
    · rw [hstep]
      show ((state_after c k).max_buf.set _ _).length = hist_len
      rw [List.length_set]; exact hmaxlen
    · rw [hstep]
      show (if (state_after c k).hist_idx + 1 ≥ hist_len then 0
          else (state_after c k).hist_idx + 1) = (k + 1) % hist_len
      rw [hidxk]
      rcases Nat.lt_or_ge (k + 1) hist_len with h | h
      · rw [if_neg (Nat.not_le.2 h), Nat.mod_eq_of_lt h]
      · have : k + 1 = hist_len := le_antisymm (Nat.succ_le_of_lt hklt) h
        rw [if_pos (ge_of_eq this), this, Nat.mod_self]
    · intro i hi
      rw [hstep]
      show ((state_after c k).min_buf.set (state_after c k).hist_idx
          (frame_min (const_frame c))).getD i 0 = _
      rw [hidxk, frame_min_const]
      rcases eq_or_ne i k with rfl | hne
      · rw [getD_set_eq c 0 (hminlen ▸ hklt), if_pos (Nat.lt_succ_self i)]
      · rw [getD_set_ne _ c 0 (Ne.symm hne), hmin i hi]
        have : i < k + 1 ↔ i < k := by omega
        rw [if_congr this rfl rfl]
    · intro i hi
      rw [hstep]
      show ((state_after c k).max_buf.set (state_after c k).hist_idx
          (frame_max (const_frame c))).getD i 0 = _
      rw [hidxk, frame_max_const]
      rcases eq_or_ne i k with rfl | hne
      · rw [getD_set_eq c 0 (hmaxlen ▸ hklt), if_pos (Nat.lt_succ_self i)]
      · rw [getD_set_ne _ c 0 (Ne.symm hne), hmax i hi]
        have : i < k + 1 ↔ i < k := by omega
        rw [if_congr this rfl rfl]

lemma hist_len_eq : hist_len = 128 := rfl

/-- On a tick whose post-write ring is constantly `c`, the normalizer output
is all zeros (the zero-range guard fires). -/
lemma output_zeros_of_all_c (c : ℚ) (s : NormState)
    (hminlen : s.min_buf.length = hist_len)
    (hmaxlen : s.max_buf.length = hist_len)
    (hmin : ∀ i, i < hist_len → (s.min_buf.set s.hist_idx c).getD i 0 = c)
    (hmax : ∀ i, i < hist_len → (s.max_buf.set s.hist_idx c).getD i 0 = c) :
    (normalize_amplitudes s (const_frame c)).2 = List.replicate led_width 0 := by
  have hminlen' : (s.min_buf.set s.hist_idx c).length = hist_len := by
    rw [List.length_set]; exact hminlen
  have hmaxlen' : (s.max_buf.set s.hist_idx c).length = hist_len := by
    rw [List.length_set]; exact hmaxlen
  have heffmin : eff_min s (const_frame c) = c := by
    unfold eff_min
    rw [frame_min_const]
    refine le_antisymm (foldl_min_le_init _ _) (le_foldl_min (le_refl c) ?_)
    intro x hx
    obtain ⟨i, hilt, hget⟩ := List.mem_iff_getElem.1 hx
    rw [← List.getD_eq_getElem _ 0 hilt] at hget
    rw [← hget, hmin i (hminlen' ▸ hilt)]
  have heffmax : eff_max s (const_frame c) = c := by
    unfold eff_max
    rw [frame_max_const]
    refine le_antisymm (foldl_max_le (le_refl c) ?_) (init_le_foldl_max _ _)
    intro x hx
    obtain ⟨i, hilt, hget⟩ := List.mem_iff_getElem.1 hx
    rw [← List.getD_eq_getElem _ 0 hilt] at hget
    rw [← hget, hmax i (hmaxlen' ▸ hilt)]
  have hguard : guard_max s (const_frame c) = c + 1 := by
    unfold guard_max
    rw [heffmax, heffmin, if_pos rfl]
  rw [normalize_snd, heffmin, hguard]
  unfold const_frame
  rw [List.map_replicate]
  congr 1
  rw [sub_self]
  rw [zero_div]

/-- On every tick before the ring is full, the constant-frame run outputs all
ones: the effective minimum is the initial `0` still present in the ring, and
the effective maximum is `c`. -/
lemma output_ones (c : ℚ) (hc : 0 < c) (k : ℕ) (hk : k + 1 < hist_len) :
    output_at c k = List.replicate led_width 1 := by
  have hk128 : k < hist_len := Nat.lt_of_succ_lt hk
  obtain ⟨hminlen, hmaxlen, hidx, hmin, hmax⟩ := state_after_char c k (le_of_lt hk128)
  have hidxk : (state_after c k).hist_idx = k := by rw [hidx, Nat.mod_eq_of_lt hk128]
  set s := state_after c k with hs
  have hbufmin : ∀ i, i < hist_len →
      (s.min_buf.set s.hist_idx c).getD i 0 = if i ≤ k then c else 0 := by
    intro i hi
    rw [hidxk]
    rcases eq_or_ne i k with rfl | hne
    · rw [getD_set_eq c 0 (hminlen ▸ hk128), if_pos (le_refl i)]
    · rw [getD_set_ne _ c 0 (Ne.symm hne), hmin i hi]
      by_cases hik : i < k
      · rw [if_pos hik, if_pos (le_of_lt hik)]
      · rw [if_neg hik, if_neg (by omega)]
  have hbufmax : ∀ i, i < hist_len →
      (s.max_buf.set s.hist_idx c).getD i 0 = if i ≤ k then c else 0 := by
    intro i hi
    rw [hidxk]
    rcases eq_or_ne i k with rfl | hne
    · rw [getD_set_eq c 0 (hmaxlen ▸ hk128), if_pos (le_refl i)]
    · rw [getD_set_ne _ c 0 (Ne.symm hne), hmax i hi]
      by_cases hik : i < k
      · rw [if_pos hik, if_pos (le_of_lt hik)]
      · rw [if_neg hik, if_neg (by omega)]
  have hminlen' : (s.min_buf.set s.hist_idx c).length = hist_len := by
    rw [List.length_set]; exact hminlen
  have hmaxlen' : (s.max_buf.set s.hist_idx c).length = hist_len := by
    rw [List.length_set]; exact hmaxlen
  have heffmin : eff_min s (const_frame c) = 0 := by
    unfold eff_min
    rw [frame_min_const]
    have hlast : (s.min_buf.set s.hist_idx c).getD (hist_len - 1) 0 = 0 := by
      rw [hbufmin (hist_len - 1) (by rw [hist_len_eq]; omega)]
      rw [if_neg (by rw [hist_len_eq] at hk ⊢; omega)]
    have h0mem : (0 : ℚ) ∈ s.min_buf.set s.hist_idx c :=
      hlast ▸ getD_mem 0 (by rw [hminlen', hist_len_eq]; omega)
    refine le_antisymm (foldl_min_le_mem _ h0mem) (le_foldl_min (le_of_lt hc) ?_)
    intro x hx
    obtain ⟨i, hilt, hget⟩ := List.mem_iff_getElem.1 hx
    rw [← List.getD_eq_getElem _ 0 hilt] at hget
    rw [← hget, hbufmin i (hminlen' ▸ hilt)]
    split
    · exact le_of_lt hc
    · exact le_refl 0
  have heffmax : eff_max s (const_frame c) = c := by
    unfold eff_max
    rw [frame_max_const]
    refine le_antisymm (foldl_max_le (le_refl c) ?_) (init_le_foldl_max _ _)
    intro x hx
    obtain ⟨i, hilt, hget⟩ := List.mem_iff_getElem.1 hx
    rw [← List.getD_eq_getElem _ 0 hilt] at hget
    rw [← hget, hbufmax i (hmaxlen' ▸ hilt)]
    split
    · exact le_refl c
    · exact le_of_lt hc
  have hguard : guard_max s (const_frame c) = c := by
    unfold guard_max
    rw [heffmax, heffmin, if_neg hc.ne']
  show (normalize_amplitudes s (const_frame c)).2 = List.replicate led_width 1
  rw [normalize_snd, heffmin, hguard]
  unfold const_frame
  rw [List.map_replicate]
  congr 1
  rw [sub_zero]
  exact div_self hc.ne'

/-- Tick `hist_len` (0-indexed `hist_len - 1`): the write fills the last
still-zero slot, the ring becomes constantly `c`, and the output collapses to
all zeros. -/
lemma output_at_ring_full (c : ℚ) (_hc : 0 < c) :
    output_at c (hist_len - 1) = List.replicate led_width 0 := by
  obtain ⟨hminlen, hmaxlen, hidx, hmin, hmax⟩ :=
    state_after_char c (hist_len - 1) (by rw [hist_len_eq]; omega)
  have hidxk : (state_after c (hist_len - 1)).hist_idx = hist_len - 1 := by
    rw [hidx, Nat.mod_eq_of_lt (by rw [hist_len_eq]; omega)]
  set s := state_after c (hist_len - 1) with hs
  have h128 := hist_len_eq
  show (normalize_amplitudes s (const_frame c)).2 = List.replicate led_width 0
  refine output_zeros_of_all_c c s hminlen hmaxlen ?_ ?_
  · intro i hi
    rw [hidxk]
    rcases eq_or_ne i (hist_len - 1) with rfl | hne
    · exact getD_set_eq c 0 (hminlen ▸ (by omega))
    · rw [getD_set_ne _ c 0 (Ne.symm hne), hmin i hi, if_pos (by omega)]
  · intro i hi
    rw [hidxk]
    rcases eq_or_ne i (hist_len - 1) with rfl | hne
    · exact getD_set_eq c 0 (hmaxlen ▸ (by omega))
    · rw [getD_set_ne _ c 0 (Ne.symm hne), hmax i hi, if_pos (by omega)]

/-- Tick `hist_len + 1`: the ring is already constantly `c`, the write
re-overwrites slot 0 with `c`, and the output stays all zeros. -/
lemma output_at_past_full (c : ℚ) (_hc : 0 < c) :
    output_at c hist_len = List.replicate led_width 0 := by
  obtain ⟨hminlen, hmaxlen, hidx, hmin, hmax⟩ :=
    state_after_char c hist_len (le_refl _)
  have hidxk : (state_after c hist_len).hist_idx = 0 := by
    rw [hidx, Nat.mod_self]
  set s := state_after c hist_len with hs
  have h128 := hist_len_eq
  show (normalize_amplitudes s (const_frame c)).2 = List.replicate led_width 0
  refine output_zeros_of_all_c c s hminlen hmaxlen ?_ ?_
  · intro i hi
    rw [hidxk]
    rcases eq_or_ne i 0 with rfl | hne
    · rw [getD_set_eq c 0 (hminlen ▸ (by omega))]
    · rw [getD_set_ne _ c 0 (Ne.symm hne), hmin i hi, if_pos hi]
  · intro i hi
    rw [hidxk]
    rcases eq_or_ne i 0 with rfl | hne
    · rw [getD_set_eq c 0 (hmaxlen ▸ (by omega))]
    · rw [getD_set_ne _ c 0 (Ne.symm hne), hmax i hi, if_pos hi]

/-- C3 counterexample: on the second constant frame (0-indexed tick 1) the
program outputs all **ones**, not all zeros — the full-ring scan still sees
the initial zeros, so min = 0, max = c and every element maps to 1.  The
claim's "all zeros from the second frame onward" is false. -/
theorem C3_second_frame_counterexample :
    output_at 1 1 = List.replicate led_width 1 ∧
      output_at 1 1 ≠ List.replicate led_width 0 := by
  have h1 := output_ones 1 one_pos 1 (by rw [hist_len_eq]; omega)
  refine ⟨h1, ?_⟩
  rw [h1]
  intro h
  have h0 := congrArg (fun l => l.headD (0 : ℚ)) h
  simp only at h0
  rw [headD_replicate 1 0 led_width_pos, headD_replicate 0 0 led_width_pos] at h0
  exact one_ne_zero h0

/-- C3 (amended).  Feeding `hist_len + 1` identical constant positive frames
from startup: every tick strictly before the ring fills (ticks `1` through
`hist_len - 1`, 0-indexed `k` with `k + 1 < hist_len`) outputs all ones, and
the outputs become all zeros only from frame `hist_len` onward (the last two
of the `hist_len + 1` frames), once the ring holds no startup zero and
min = max collapses the range. -/
theorem C3_constant_frames_amended (c : ℚ) (hc : 0 < c) :
    (∀ k, k + 1 < hist_len → output_at c k = List.replicate led_width 1) ∧
      output_at c (hist_len - 1) = List.replicate led_width 0 ∧
      output_at c hist_len = List.replicate led_width 0 :=
  ⟨fun k hk => output_ones c hc k hk,
    output_at_ring_full c hc, output_at_past_full c hc⟩

/-- Witness for C3 (amended) at `c = 1`, first tick. -/
theorem C3_constant_frames_witness :
    output_at 1 0 = List.replicate led_width 1 ∧
      output_at 1 (hist_len - 1) = List.replicate led_width 0 ∧
      output_at 1 hist_len = List.replicate led_width 0 :=
  ⟨(C3_constant_frames_amended 1 one_pos).1 0 (by rw [hist_len_eq]; omega),
    (C3_constant_frames_amended 1 one_pos).2.1,
    (C3_constant_frames_amended 1 one_pos).2.2⟩

/-! ## Serial upload (C4) -/

lemma upload_getD (levels : List ℤ) {i : ℕ} (hi : i < led_width) :
    (upload_matrix levels).getD i 0 = levels.getD i 0 := by
  have h1 : i < ((List.range led_width).map (fun j => levels.getD j 0)).length := by
    rw [List.length_map, List.length_range]; exact hi
  unfold upload_matrix
  rw [List.getD_eq_getElem _ _ h1, List.getElem_map, List.getElem_range]

lemma update_getD (amps : List ℚ) {i : ℕ} (hi : i < led_width) :
    (update_matrix_from_amplitudes amps).getD i 0 =
      python_int (amps.getD i 0 * led_height) := by
  have h1 : i < ((List.range led_width).map
      (fun x => python_int (amps.getD x 0 * led_height))).length := by
    rw [List.length_map, List.length_range]; exact hi
  unfold update_matrix_from_amplitudes
  rw [List.getD_eq_getElem _ _ h1, List.getElem_map, List.getElem_range]

lemma python_int_of_nonneg {q : ℚ} (h : 0 ≤ q) : python_int q = ⌊q⌋ :=
  if_pos h

lemma python_int_natCast (n : ℕ) : python_int (n : ℚ) = n := by
  rw [python_int_of_nonneg (by positivity)]
  exact_mod_cast Int.floor_natCast n

/-- C4 counterexample: on the second tick of the constant-frame scenario the
normalized vector is all ones (a reachable, in-range `[0,1]` input), and the
first byte emitted over serial is `int(1 * led_height) = led_height = 16`,
which is **not** ≤ `led_height - 1 = 15`: `update_matrix_from_amplitudes` has
no clamp, so the claimed range `0..led_height−1` is violated. -/
theorem C4_upload_range_counterexample :
    (upload_matrix (update_matrix_from_amplitudes (output_at 1 1))).getD 0 0 =
        (led_height : ℤ) ∧
      ¬ (upload_matrix (update_matrix_from_amplitudes (output_at 1 1))).getD 0 0 ≤
          (led_height : ℤ) - 1 := by
  have h1 : output_at 1 1 = List.replicate led_width 1 :=
    output_ones 1 one_pos 1 (by rw [hist_len_eq]; omega)
  have hg : ((List.replicate led_width (1 : ℚ))).getD 0 0 = 1 := by
    rw [List.getD_eq_getElem _ _ (by simpa using led_width_pos)]
    exact List.getElem_replicate _ _
  have hv : (upload_matrix (update_matrix_from_amplitudes (output_at 1 1))).getD 0 0 =
      (led_height : ℤ) := by
    rw [h1, upload_getD _ led_width_pos, update_getD _ led_width_pos, hg, one_mul]
    exact python_int_natCast led_height
  refine ⟨hv, ?_⟩
  rw [hv]
  norm_num

/-- C4 (amended).  On every tick the serial upload emits exactly `led_width`
values, one per column in left-to-right order, each equal to that column's
height `int(amp * led_height)`; for a normalized amplitude in `[0,1]` this
height lies in `0..led_height` **inclusive** (the value `led_height` occurs
at `amp = 1`; there is no clamp to `led_height - 1`). -/
theorem C4_upload_bytes_amended (amps : List ℚ)
    (hlen : amps.length = led_width)
    (hrange : ∀ x ∈ amps, 0 ≤ x ∧ x ≤ 1) :
    (upload_matrix (update_matrix_from_amplitudes amps)).length = led_width ∧
    ∀ i, i < led_width →
      (upload_matrix (update_matrix_from_amplitudes amps)).getD i 0 =
          python_int (amps.getD i 0 * led_height) ∧
        0 ≤ (upload_matrix (update_matrix_from_amplitudes amps)).getD i 0 ∧
        (upload_matrix (update_matrix_from_amplitudes amps)).getD i 0 ≤
          (led_height : ℤ) := by
  constructor
  · unfold upload_matrix
    rw [List.length_map, List.length_range]
  · intro i hi
    have hq := hrange (amps.getD i 0) (getD_mem 0 (hlen ▸ hi))
    have hq16 : (0 : ℚ) ≤ amps.getD i 0 * led_height :=
      mul_nonneg hq.1 (by positivity)
    have hval : (upload_matrix (update_matrix_from_amplitudes amps)).getD i 0 =
        python_int (amps.getD i 0 * led_height) := by
      rw [upload_getD _ hi, update_getD _ hi]
    refine ⟨hval, ?_, ?_⟩
    · rw [hval, python_int_of_nonneg hq16]
      exact Int.floor_nonneg.2 hq16
    · rw [hval, python_int_of_nonneg hq16]
      calc ⌊amps.getD i 0 * led_height⌋
          ≤ ⌊((led_height : ℕ) : ℚ)⌋ :=
            Int.floor_le_floor (mul_le_of_le_one_left (by positivity) hq.2)
        _ = (led_height : ℤ) := Int.floor_natCast led_height

/-- Witness for C4 (amended) on the all-`1/2` normalized vector. -/
theorem C4_upload_bytes_witness :
    (upload_matrix (update_matrix_from_amplitudes
        (List.replicate led_width (1/2)))).length = led_width ∧
      ((upload_matrix (update_matrix_from_amplitudes
          (List.replicate led_width (1/2)))).getD 0 0 =
          python_int ((List.replicate led_width ((1 : ℚ)/2)).getD 0 0 * led_height) ∧
        0 ≤ (upload_matrix (update_matrix_from_amplitudes
            (List.replicate led_width (1/2)))).getD 0 0 ∧
        (upload_matrix (update_matrix_from_amplitudes
            (List.replicate led_width (1/2)))).getD 0 0 ≤ (led_height : ℤ)) :=
  ⟨(C4_upload_bytes_amended (List.replicate led_width (1/2))
      (List.length_replicate _ _)
      (fun x hx => by rw [List.eq_of_mem_replicate hx]; norm_num)).1,
    (C4_upload_bytes_amended (List.replicate led_width (1/2))
      (List.length_replicate _ _)
      (fun x hx => by rw [List.eq_of_mem_replicate hx]; norm_num)).2 0 led_width_pos⟩

/-! ## The history-ring cursor along an arbitrary run (C6) -/

/-- The normalizer state after `k` ticks on an arbitrary sequence of frames,
from startup. -/
def run_states (frames : ℕ → List ℚ) : ℕ → NormState
  | 0 => init_state
  | k + 1 => (normalize_amplitudes (run_states frames k) (frames k)).1

lemma run_states_len (frames : ℕ → List ℚ) : ∀ k,
    (run_states frames k).min_buf.length = hist_len ∧
      (run_states frames k).max_buf.length = hist_len := by
  intro k
  induction k with
  | zero => constructor <;> simp [run_states, init_state]
  | succ k ih =>
    constructor
    · show ((run_states frames k).min_buf.set _ _).length = hist_len
      rw [List.length_set]; exact ih.1
    · show ((run_states frames k).max_buf.set _ _).length = hist_len
      rw [List.length_set]; exact ih.2

lemma normalize_idx_mod (s : NormState) (amp : List ℚ) (h : s.hist_idx < hist_len) :
    (normalize_amplitudes s amp).1.hist_idx = (s.hist_idx + 1) % hist_len := by
  rw [normalize_fst_idx]
  rcases Nat.lt_or_ge (s.hist_idx + 1) hist_len with h1 | h1
  · rw [if_neg (Nat.not_le.2 h1), Nat.mod_eq_of_lt h1]
  · have h2 : s.hist_idx + 1 = hist_len := le_antisymm (Nat.succ_le_of_lt h) h1
    rw [if_pos (ge_of_eq h2), h2, Nat.mod_self]

lemma run_states_idx (frames : ℕ → List ℚ) : ∀ k, k ≤ hist_len →
    (run_states frames k).hist_idx = k % hist_len := by
  intro k
  induction k with
  | zero => intro _; rw [Nat.zero_mod]; rfl
  | succ k ih =>
    intro hk1
    have hklt : k < hist_len := Nat.lt_of_succ_le hk1
    have hidxk : (run_states frames k).hist_idx = k := by
      rw [ih (le_of_lt hklt), Nat.mod_eq_of_lt hklt]
    show (normalize_amplitudes (run_states frames k) (frames k)).1.hist_idx = _
    rw [normalize_idx_mod _ _ (by rw [hidxk]; exact hklt), hidxk]

lemma run_states_slots (frames : ℕ → List ℚ) : ∀ k, k ≤ hist_len → ∀ j, j < k →
    (run_states frames k).min_buf.getD j 0 = frame_min (frames j) ∧
      (run_states frames k).max_buf.getD j 0 = frame_max (frames j) := by
  intro k
  induction k with
  | zero => intro _ j hj; exact absurd hj (Nat.not_lt_zero j)
  | succ k ih =>
    intro hk1 j hj
    have hklt : k < hist_len := Nat.lt_of_succ_le hk1
    have hidxk : (run_states frames k).hist_idx = k := by
      rw [run_states_idx frames k (le_of_lt hklt), Nat.mod_eq_of_lt hklt]
    have hlen := run_states_len frames k
    rcases eq_or_ne j k with rfl | hne
    · constructor
      · show ((run_states frames j).min_buf.set _ _).getD j 0 = _
        rw [hidxk]
        exact getD_set_eq _ 0 (hlen.1 ▸ hklt)
      · show ((run_states frames j).max_buf.set _ _).getD j 0 = _
        rw [hidxk]
        exact getD_set_eq _ 0 (hlen.2 ▸ hklt)
    · have hjk : j < k := by omega
      constructor
      · show ((run_states frames k).min_buf.set _ _).getD j 0 = _
        rw [hidxk, getD_set_ne _ _ 0 (Ne.symm hne)]
        exact (ih (le_of_lt hklt) j hjk).1
      · show ((run_states frames k).max_buf.set _ _).getD j 0 = _
        rw [hidxk, getD_set_ne _ _ 0 (Ne.symm hne)]
        exact (ih (le_of_lt hklt) j hjk).2

/-- C6.  The ring cursor always points at the next slot to overwrite (each
call writes exactly slot `hist_idx` of both buffers) and advances by one
modulo `hist_len`; starting from cursor 0, after `k ≤ hist_len` calls the
cursor is `k % hist_len` — in particular after exactly `hist_len` calls it is
back at its starting position 0 — and each of the `hist_len` slots was
overwritten exactly once: slot `j` holds precisely the value written by call
`j + 1`. -/
theorem C6_ring_cursor_wraps (frames : ℕ → List ℚ) :
    (∀ (s : NormState) (amp : List ℚ), s.hist_idx < hist_len →
      (normalize_amplitudes s amp).1.hist_idx = (s.hist_idx + 1) % hist_len) ∧
    (∀ (s : NormState) (amp : List ℚ),
      (normalize_amplitudes s amp).1.min_buf =
          s.min_buf.set s.hist_idx (frame_min amp) ∧
        (normalize_amplitudes s amp).1.max_buf =
          s.max_buf.set s.hist_idx (frame_max amp)) ∧
    (∀ k, k ≤ hist_len → (run_states frames k).hist_idx = k % hist_len) ∧
    (run_states frames hist_len).hist_idx = (run_states frames 0).hist_idx ∧
    (∀ j, j < hist_len →
      (run_states frames hist_len).min_buf.getD j 0 = frame_min (frames j) ∧
        (run_states frames hist_len).max_buf.getD j 0 = frame_max (frames j)) := by
  refine ⟨normalize_idx_mod,
    fun s amp => ⟨normalize_fst_min_buf s amp, normalize_fst_max_buf s amp⟩,
    run_states_idx frames, ?_, run_states_slots frames hist_len (le_refl _)⟩
  rw [run_states_idx frames hist_len (le_refl _), Nat.mod_self]
  rfl

/-- Witness for C6 at the constant-zero frame sequence. -/
theorem C6_ring_cursor_witness :
    (run_states (fun _ => const_frame 0) 5).hist_idx = 5 % hist_len ∧
      (run_states (fun _ => const_frame 0) hist_len).min_buf.getD 3 0 =
        frame_min (const_frame 0) ∧
      (normalize_amplitudes init_state (const_frame 0)).1.hist_idx =
        (init_state.hist_idx + 1) % hist_len :=
  ⟨(C6_ring_cursor_wraps (fun _ => const_frame 0)).2.2.1 5 (by rw [hist_len_eq]; omega),
    ((C6_ring_cursor_wraps (fun _ => const_frame 0)).2.2.2.2 3
      (by rw [hist_len_eq]; omega)).1,
    (C6_ring_cursor_wraps (fun _ => const_frame 0)).1 init_state (const_frame 0)
      (by show 0 < hist_len; rw [hist_len_eq]; omega)⟩

/-! ## Per-slot min ≤ max invariant (C9) -/

/-- Well-formedness of the ring: both buffers have length `hist_len` and each
slot's recorded minimum is at most its recorded maximum. -/
def ring_wf (s : NormState) : Prop :=
  s.min_buf.length = hist_len ∧ s.max_buf.length = hist_len ∧
    ∀ i, s.min_buf.getD i 0 ≤ s.max_buf.getD i 0

lemma ring_wf_init : ring_wf init_state := by
  refine ⟨by simp [init_state], by simp [init_state], ?_⟩
  intro i
  show (List.replicate hist_len (0 : ℚ)).getD i 0 ≤
    (List.replicate hist_len (0 : ℚ)).getD i 0
  exact le_refl _

lemma ring_wf_step (s : NormState) (amp : List ℚ) (h : ring_wf s) :
    ring_wf (normalize_amplitudes s amp).1 := by
  obtain ⟨hminlen, hmaxlen, hle⟩ := h
  refine ⟨?_, ?_, ?_⟩
  · rw [normalize_fst_min_buf, List.length_set]; exact hminlen
  · rw [normalize_fst_max_buf, List.length_set]; exact hmaxlen
  · intro i
    rw [normalize_fst_min_buf, normalize_fst_max_buf]
    rcases eq_or_ne i s.hist_idx with rfl | hne
    · rcases Nat.lt_or_ge s.hist_idx hist_len with hilt | hige
      · rw [getD_set_eq _ 0 (hminlen ▸ hilt), getD_set_eq _ 0 (hmaxlen ▸ hilt)]
        exact frame_min_le_frame_max amp
      · rw [List.getD_eq_default _ _ (by rw [List.length_set, hminlen]; exact hige),
          List.getD_eq_default _ _ (by rw [List.length_set, hmaxlen]; exact hige)]
    · rw [getD_set_ne _ _ 0 (Ne.symm hne), getD_set_ne _ _ 0 (Ne.symm hne)]
      exact hle i

/-- C9.  Every slot of the history ring satisfies `min_buf[i] ≤ max_buf[i]`:
it holds for the initial all-zero buffers, it is preserved by every
`normalize_amplitudes` call (both writes land in the same slot, with the
frame minimum ≤ the frame maximum), and consequently the effective minimum
never exceeds the effective maximum before the zero-range guard. -/
theorem C9_slot_min_le_max :
    ring_wf init_state ∧
      (∀ (s : NormState) (amp : List ℚ), ring_wf s →
        ring_wf (normalize_amplitudes s amp).1) ∧
      (∀ (s : NormState) (amp : List ℚ), eff_min s amp ≤ eff_max s amp) :=
  ⟨ring_wf_init, fun s amp h => ring_wf_step s amp h,
    fun s amp => eff_min_le_eff_max s amp⟩

/-- Witness for C9 after one call on the initial state. -/
theorem C9_slot_min_le_max_witness :
    ring_wf (normalize_amplitudes init_state (const_frame 2)).1 ∧
      eff_min init_state (const_frame 2) ≤ eff_max init_state (const_frame 2) :=
  ⟨C9_slot_min_le_max.2.1 init_state (const_frame 2) ring_wf_init,
    C9_slot_min_le_max.2.2 init_state (const_frame 2)⟩

/-! ## Order preservation of the rescale (C7) -/

lemma normalize_lt_of_lt (s : NormState) (amp : List ℚ) {i j : ℕ}
    (hi : i < amp.length) (hj : j < amp.length)
    (hlt : amp.getD i 0 < amp.getD j 0) :
    (normalize_amplitudes s amp).2.getD i 0 <
      (normalize_amplitudes s amp).2.getD j 0 := by
  rw [normalize_out_getD s amp hi, normalize_out_getD s amp hj]
  have hd : (0 : ℚ) < guard_max s amp - eff_min s amp :=
    sub_pos.2 (eff_min_lt_guard_max s amp)
  exact (div_lt_div_iff_of_pos_right hd).2 (sub_lt_sub_right hlt _)

lemma normalize_eq_of_eq (s : NormState) (amp : List ℚ) {i j : ℕ}
    (hi : i < amp.length) (hj : j < amp.length)
    (heq : amp.getD i 0 = amp.getD j 0) :
    (normalize_amplitudes s amp).2.getD i 0 =
      (normalize_amplitudes s amp).2.getD j 0 := by
  rw [normalize_out_getD s amp hi, normalize_out_getD s amp hj, heq]

lemma map_mul_getD (amp : List ℚ) (k : ℚ) {i : ℕ} (hi : i < amp.length) :
    (amp.map (fun a => k * a)).getD i 0 = k * amp.getD i 0 := by
  have h1 : i < (amp.map (fun a => k * a)).length := by
    rw [List.length_map]; exact hi
  rw [List.getD_eq_getElem _ _ h1, List.getElem_map, List.getD_eq_getElem _ _ hi]

/-- C7.  Normalization preserves the relative order of columns within a
tick, and does so identically for an input scaled by any positive constant:
from the same history state, if column `i`'s raw input is below (resp. equal
to) column `j`'s, then the normalized outputs compare the same way, both on
the original vector and on the vector with every element multiplied by
`k > 0`. -/
theorem C7_order_preserved (s : NormState) (amp : List ℚ) (k : ℚ) (hk : 0 < k)
    (i j : ℕ) (hi : i < amp.length) (hj : j < amp.length) :
    (amp.getD i 0 < amp.getD j 0 →
      (normalize_amplitudes s amp).2.getD i 0 <
          (normalize_amplitudes s amp).2.getD j 0 ∧
        (normalize_amplitudes s (amp.map (fun a => k * a))).2.getD i 0 <
          (normalize_amplitudes s (amp.map (fun a => k * a))).2.getD j 0) ∧
    (amp.getD i 0 = amp.getD j 0 →
      (normalize_amplitudes s amp).2.getD i 0 =
          (normalize_amplitudes s amp).2.getD j 0 ∧
        (normalize_amplitudes s (amp.map (fun a => k * a))).2.getD i 0 =
          (normalize_amplitudes s (amp.map (fun a => k * a))).2.getD j 0) := by
  have hi' : i < (amp.map (fun a => k * a)).length := by
    rw [List.length_map]; exact hi
  have hj' : j < (amp.map (fun a => k * a)).length := by
    rw [List.length_map]; exact hj
  constructor
  · intro hlt
    refine ⟨normalize_lt_of_lt s amp hi hj hlt, ?_⟩
    refine normalize_lt_of_lt s _ hi' hj' ?_
    rw [map_mul_getD amp k hi, map_mul_getD amp k hj]
    exact (mul_lt_mul_left hk).2 hlt
  · intro heq
    refine ⟨normalize_eq_of_eq s amp hi hj heq, ?_⟩
    refine normalize_eq_of_eq s _ hi' hj' ?_
    rw [map_mul_getD amp k hi, map_mul_getD amp k hj, heq]

/-- Witness for C7 on the ramp vector `[0, 1, 2, ...]`, scale `2`. -/
theorem C7_order_preserved_witness :
    ((List.map (fun n : ℕ => (n : ℚ)) (List.range led_width)).getD 0 0 <
        (List.map (fun n : ℕ => (n : ℚ)) (List.range led_width)).getD 1 0 →
      (normalize_amplitudes init_state
          (List.map (fun n : ℕ => (n : ℚ)) (List.range led_width))).2.getD 0 0 <
          (normalize_amplitudes init_state
            (List.map (fun n : ℕ => (n : ℚ)) (List.range led_width))).2.getD 1 0 ∧
        (normalize_amplitudes init_state
            ((List.map (fun n : ℕ => (n : ℚ)) (List.range led_width)).map
              (fun a => 2 * a))).2.getD 0 0 <
          (normalize_amplitudes init_state
            ((List.map (fun n : ℕ => (n : ℚ)) (List.range led_width)).map
              (fun a => 2 * a))).2.getD 1 0) ∧
    ((List.map (fun n : ℕ => (n : ℚ)) (List.range led_width)).getD 0 0 =
        (List.map (fun n : ℕ => (n : ℚ)) (List.range led_width)).getD 1 0 →
      (normalize_amplitudes init_state
          (List.map (fun n : ℕ => (n : ℚ)) (List.range led_width))).2.getD 0 0 =
          (normalize_amplitudes init_state
            (List.map (fun n : ℕ => (n : ℚ)) (List.range led_width))).2.getD 1 0 ∧
        (normalize_amplitudes init_state
            ((List.map (fun n : ℕ => (n : ℚ)) (List.range led_width)).map
              (fun a => 2 * a))).2.getD 0 0 =
          (normalize_amplitudes init_state
            ((List.map (fun n : ℕ => (n : ℚ)) (List.range led_width)).map
              (fun a => 2 * a))).2.getD 1 0) :=
  C7_order_preserved init_state (List.map (fun n : ℕ => (n : ℚ)) (List.range led_width))
    2 (by norm_num) 0 1
    (by rw [List.length_map, List.length_range]; exact led_width_pos)
    (by rw [List.length_map, List.length_range, led_width]; omega)

/-! ## FFT amplitude extraction (`avis.py` lines 89-107)

`numpy.fft.rfft` of a real frame of length `n` returns the `n / 2 + 1`
non-negative-frequency DFT coefficients `A_k = Σ_j a_j exp(-2πi·j·k/n)`.
The code then keeps the first half of those (`fft[:len(fft)//2]`), splits
them into `led_width` buckets of width `len(fft) // led_width` and averages
the coefficient magnitudes `sqrt(re² + im²)` per bucket. -/

noncomputable def rfft (frame : List ℝ) : List ℂ :=
  List.map (fun k : ℕ =>
      ∑ j in Finset.range frame.length,
        ((frame.getD j 0 : ℝ) : ℂ) *
          Complex.exp (-(2 * (Real.pi : ℂ) * Complex.I * (j : ℂ) * (k : ℂ)) /
            (frame.length : ℂ)))
    (List.range (frame.length / 2 + 1))

/-- `fft = fft[:len(fft)//2]` (`avis.py` line 94). -/
noncomputable def fft_half (frame : List ℝ) : List ℂ :=
  (rfft frame).take ((rfft frame).length / 2)

/-- `bucket_width = int(len(fft) / led_width)` (`avis.py` line 98). -/
noncomputable def bucket_width (frame : List ℝ) : ℕ :=
  (fft_half frame).length / led_width

/-- `compute_amplitudes` (`avis.py` lines 89-107): column `i` accumulates
`sqrt(re² + im²)` of the coefficients `fft[i*bucket_width + j]`,
`j < bucket_width`, then divides by `bucket_width`. -/
noncomputable def compute_amplitudes (frame : List ℝ) : List ℝ :=
  (List.range led_width).map (fun i =>
    (∑ j in Finset.range (bucket_width frame),
      Real.sqrt (((fft_half frame).getD (i * bucket_width frame + j) 0).re ^ 2 +
        ((fft_half frame).getD (i * bucket_width frame + j) 0).im ^ 2)) /
      (bucket_width frame : ℝ))

/-- The spec's description of the same computation: take the first half of
the coefficients, drop the trailing coefficients beyond
`bucket_width * led_width`, partition the rest into `led_width` contiguous
buckets of width `bucket_width`, and return each bucket's mean coefficient
magnitude. -/
noncomputable def spec_bucket_means (frame : List ℝ) : List ℝ :=
  (List.range led_width).map (fun i =>
    (((((fft_half frame).take (bucket_width frame * led_width)).drop
          (i * bucket_width frame)).take (bucket_width frame)).map
        (fun z => Complex.abs z)).sum /
      (bucket_width frame : ℝ))

lemma sqrt_re_sq_add_im_sq (z : ℂ) :
    Real.sqrt (z.re ^ 2 + z.im ^ 2) = Complex.abs z := by
  rw [Complex.abs_apply, Complex.normSq_apply, pow_two, pow_two]

lemma sum_map_eq_range {α : Type} (f : α → ℝ) (d : α) : ∀ l : List α,
    (l.map f).sum = ∑ j in Finset.range l.length, f (l.getD j d) := by
  intro l
  induction l with
  | nil => simp
  | cons a t ih =>
    rw [List.map_cons, List.sum_cons, ih, List.length_cons, Finset.sum_range_succ']
    simp only [List.getD_cons_zero, List.getD_cons_succ]
    exact add_comm _ _

lemma getD_take {α : Type} (l : List α) {n t : ℕ} (d : α) (h : t < n) :
    (l.take n).getD t d = l.getD t d := by
  rcases Nat.lt_or_ge t l.length with hl | hl
  · have h1 : t < (l.take n).length := by
      rw [List.length_take]; exact lt_min h hl
    rw [List.getD_eq_getElem _ _ h1, List.getD_eq_getElem _ _ hl]
    exact List.getElem_take l
  · rw [List.getD_eq_default _ _ (by rw [List.length_take]; omega),
      List.getD_eq_default _ _ hl]

lemma sum_map_slice (f : ℂ → ℝ) (l : List ℂ) (a b : ℕ) (hab : a + b ≤ l.length) :
    (((l.drop a).take b).map f).sum =
      ∑ j in Finset.range b, f (l.getD (a + j) 0) := by
  have hlen : ((l.drop a).take b).length = b := by
    rw [List.length_take, List.length_drop]; omega
  rw [sum_map_eq_range f 0, hlen]
  apply Finset.sum_congr rfl
  intro j hj
  have hjb : j < b := Finset.mem_range.1 hj
  congr 1
  have h1 : j < ((l.drop a).take b).length := by rw [hlen]; exact hjb
  have h2 : a + j < l.length := by omega
  rw [List.getD_eq_getElem _ _ h1, List.getElem_take, List.getElem_drop,
    List.getD_eq_getElem _ _ h2]

/-- C8.  `compute_amplitudes` coincides, for every frame, with the spec's
bucketed-mean-of-magnitudes description (first half of the rFFT
coefficients, `led_width` contiguous buckets of width
`⌊count / led_width⌋`, trailing coefficients dropped, `sqrt(re² + im²)`
magnitudes averaged per bucket); and a frame of `samples_per_frame` zero
samples yields a vector of `led_width` zeros. -/
theorem C8_bucketed_means :
    (∀ frame : List ℝ, compute_amplitudes frame = spec_bucket_means frame) ∧
      compute_amplitudes (List.replicate samples_per_frame 0) =
        List.replicate led_width 0 := by
  constructor
  · intro frame
    unfold compute_amplitudes spec_bucket_means
    apply List.map_congr_left
    intro i hi
    have hiW : i < led_width := List.mem_range.1 hi
    have hbound : bucket_width frame * led_width ≤ (fft_half frame).length :=
      Nat.div_mul_le_self _ _
    have husedlen : ((fft_half frame).take (bucket_width frame * led_width)).length =
        bucket_width frame * led_width := by
      rw [List.length_take]
      exact min_eq_left hbound
    have hislice : i * bucket_width frame + bucket_width frame ≤
        bucket_width frame * led_width := by
      have h1 : (i + 1) * bucket_width frame ≤ led_width * bucket_width frame :=
        Nat.mul_le_mul_right _ (Nat.succ_le_of_lt hiW)
      calc i * bucket_width frame + bucket_width frame
          = (i + 1) * bucket_width frame := (Nat.succ_mul i _).symm
        _ ≤ led_width * bucket_width frame := h1
        _ = bucket_width frame * led_width := Nat.mul_comm _ _
    rw [sum_map_slice _ _ _ _ (by rw [husedlen]; exact hislice)]
    congr 1
    apply Finset.sum_congr rfl
    intro j hj
    have hjb : j < bucket_width frame := Finset.mem_range.1 hj
    rw [getD_take _ 0 (by omega : i * bucket_width frame + j <
      bucket_width frame * led_width)]
    exact sqrt_re_sq_add_im_sq _
  · have hrfft : rfft (List.replicate samples_per_frame 0) =
        List.replicate (samples_per_frame / 2 + 1) 0 := by
      unfold rfft
      rw [List.length_replicate]
      refine List.eq_replicate_iff.2 ⟨by rw [List.length_map, List.length_range], ?_⟩
      intro b hb
      obtain ⟨k, hk, rfl⟩ := List.mem_map.1 hb
      apply Finset.sum_eq_zero
      intro j hj
      rw [getD_replicate_self, Complex.ofReal_zero, zero_mul]
    have hhalf : fft_half (List.replicate samples_per_frame 0) =
        List.replicate 128 0 := by
      unfold fft_half
      rw [hrfft, List.length_replicate, List.take_replicate]
      norm_num [samples_per_frame]
    have hbw : bucket_width (List.replicate samples_per_frame 0) = 4 := by
      unfold bucket_width
      rw [hhalf, List.length_replicate]
      norm_num [led_width]
    unfold compute_amplitudes
    refine List.eq_replicate_iff.2 ⟨by rw [List.length_map, List.length_range], ?_⟩
    intro b hb
    obtain ⟨i, hi, rfl⟩ := List.mem_map.1 hb
    rw [hbw, hhalf]
    have hz : ∀ j ∈ Finset.range 4,
        Real.sqrt (((List.replicate 128 (0 : ℂ)).getD (i * 4 + j) 0).re ^ 2 +
          ((List.replicate 128 (0 : ℂ)).getD (i * 4 + j) 0).im ^ 2) = 0 := by
      intro j _
      rw [getD_replicate_self]
      simp
    rw [Finset.sum_congr rfl hz]
    simp

/-! ## Non-negativity of raw amplitudes (C10) -/

lemma compute_amplitudes_getD_nonneg (frame : List ℝ) (i : ℕ) :
    0 ≤ (compute_amplitudes frame).getD i 0 := by
  rcases Nat.lt_or_ge i led_width with hi | hi
  · have h1 : i < ((List.range led_width).map (fun i =>
        (∑ j in Finset.range (bucket_width frame),
          Real.sqrt (((fft_half frame).getD (i * bucket_width frame + j) 0).re ^ 2 +
            ((fft_half frame).getD (i * bucket_width frame + j) 0).im ^ 2)) /
          (bucket_width frame : ℝ))).length := by
      rw [List.length_map, List.length_range]; exact hi
    unfold compute_amplitudes
    rw [List.getD_eq_getElem _ _ h1, List.getElem_map]
    refine div_nonneg (Finset.sum_nonneg fun j _ => Real.sqrt_nonneg _) ?_
    exact Nat.cast_nonneg _
  · rw [List.getD_eq_default]
    unfold compute_amplitudes
    rw [List.length_map, List.length_range]
    exact hi

lemma frame_min_nonneg {l : List ℝ} (h : ∀ x ∈ l, 0 ≤ x) : 0 ≤ frame_min l := by
  unfold frame_min
  refine le_foldl_min ?_ h
  cases l with
  | nil => exact le_refl 0
  | cons a t => exact h a (List.mem_cons_self a t)

/-- C10.  Every element of the raw amplitude vector returned by
`compute_amplitudes` is non-negative (each column is a mean of non-negative
magnitudes), and consequently the per-frame minimum that
`normalize_amplitudes` computes over such a vector is always ≥ 0. -/
theorem C10_amplitudes_nonneg :
    (∀ (frame : List ℝ) (i : ℕ), 0 ≤ (compute_amplitudes frame).getD i 0) ∧
      ∀ frame : List ℝ, 0 ≤ frame_min (compute_amplitudes frame) := by
  refine ⟨compute_amplitudes_getD_nonneg, ?_⟩
  intro frame
  refine frame_min_nonneg ?_
  intro x hx
  obtain ⟨t, htlt, hget⟩ := List.mem_iff_getElem.1 hx
  rw [← List.getD_eq_getElem _ 0 htlt] at hget
  rw [← hget]
  exact compute_amplitudes_getD_nonneg frame t

end Avis
